import Mathlib

/-!
Verification development for the zamia-prolog engine core
(src/halprolog/runtime.py and src/zamiaprolog/logicdb.py).

The term data model (class hierarchy Variable / NumberLiteral /
StringLiteral / ListLiteral / Predicate of logic.py, which is not part of
the sources under verification) is modelled from the spec, section 3.
Everything else is a direct shallow embedding of the Python sources:

* pure values replace mutable objects; the pervasive deepcopy calls of the
  source become the identity on values;
* Python dict environments become association lists with in-place update
  semantics (replace the existing key in position, append new keys);
* a dict may store the Python value None (the source stores results of
  prolog_eval, which can be None), so environment values are Option Term;
* numeric literals are modelled with Int instead of Python float; no claim
  under verification exercises division or rounding behaviour;
* the partial functions of the source (prolog_eval and _unify can recurse
  unboundedly through variable chains, the search main loop can run
  forever) take an explicit fuel argument and return an Option whose none
  means that the fuel ran out; a some result is the value the Python
  function returns;
* exceptions raised by the source (PrologRuntimeError) are modelled with
  Except String;
* the tables of registered builtin predicates and builtin functions
  (instance state of PrologRuntime, with implementations in builtins.py,
  also outside the sources under verification) are parameters of the
  embedded functions.  The concrete queries of the claims use only
  predicate names that are not registered in either table, so those
  claims are stated with the everywhere-empty tables.
-/

/-- Term model, from spec section 3 (logic.py is not under src). -/
inductive Term where
  | Variable      (name : String)
  | NumberLiteral (f : Int)
  | StringLiteral (s : String)
  | ListLiteral   (items : List Term)
  | Predicate     (name : String) (args : List Term)
deriving Repr

/-- Structural equality of terms, spec section 4.1 (the == of logic.py). -/
def Term.beq : Term → Term → Bool
  | .Variable a, .Variable b => a == b
  | .NumberLiteral a, .NumberLiteral b => a == b
  | .StringLiteral a, .StringLiteral b => a == b
  | .ListLiteral as, .ListLiteral bs => goList as bs
  | .Predicate n as, .Predicate m bs => n == m && goList as bs
  | _, _ => false
where
  goList : List Term → List Term → Bool
  | [], [] => true
  | a :: as, b :: bs => Term.beq a b && goList as bs
  | _, _ => false

/-- Member-wise induction principle for the nested inductive Term. -/
def Term.indOn (P : Term → Prop)
    (hv : ∀ n, P (.Variable n))
    (hn : ∀ f, P (.NumberLiteral f))
    (hs : ∀ s, P (.StringLiteral s))
    (hl : ∀ xs, (∀ x ∈ xs, P x) → P (.ListLiteral xs))
    (hp : ∀ n as, (∀ a ∈ as, P a) → P (.Predicate n as)) :
    ∀ t, P t
  | .Variable n => hv n
  | .NumberLiteral f => hn f
  | .StringLiteral s => hs s
  | .ListLiteral xs => hl xs (fun x hx => Term.indOn P hv hn hs hl hp x)
  | .Predicate n as => hp n as (fun a ha => Term.indOn P hv hn hs hl hp a)
termination_by t => sizeOf t
decreasing_by
  · have := List.sizeOf_lt_of_mem hx
    simp only [Term.ListLiteral.sizeOf_spec]
    omega
  · have := List.sizeOf_lt_of_mem ha
    simp only [Term.Predicate.sizeOf_spec]
    omega

theorem Term.goList_iff (as : List Term)
    (ih : ∀ x ∈ as, ∀ b, Term.beq x b = true ↔ x = b) :
    ∀ bs, Term.beq.goList as bs = true ↔ as = bs := by
  induction as with
  | nil => intro bs; cases bs <;> simp [Term.beq.goList]
  | cons a as ihas =>
    intro bs
    cases bs with
    | nil => simp [Term.beq.goList]
    | cons b bs =>
      simp [Term.beq.goList, Bool.and_eq_true, ih a (by simp),
        ihas (fun x hx => ih x (by simp [hx])) bs]

theorem Term.beq_iff : ∀ a b : Term, Term.beq a b = true ↔ a = b := by
  intro a
  induction a using Term.indOn with
  | hv n => intro b; cases b <;> simp [Term.beq]
  | hn f => intro b; cases b <;> simp [Term.beq]
  | hs s => intro b; cases b <;> simp [Term.beq]
  | hl xs ih =>
    intro b
    cases b <;> simp [Term.beq]
    exact Term.goList_iff xs ih _
  | hp n as ih =>
    intro b
    cases b <;> simp [Term.beq, Bool.and_eq_true]
    intro _
    exact Term.goList_iff as ih _

instance : DecidableEq Term := fun a b =>
  decidable_of_iff (Term.beq a b = true) (Term.beq_iff a b)

/-- Default term used to model a Python IndexError site that no reachable
state exercises (list indexing in the source is always in bounds there). -/
def defaultTerm : Term := Term.Predicate "" []

/-- The .name attribute access of the source: Variable and Predicate both
have a name; on literals the Python attribute access would raise, which no
claim exercises, so we return the empty string there. -/
def Term.pname : Term → String
  | .Variable n    => n
  | .Predicate n _ => n
  | _              => ""

/-- The .args attribute: only Predicate has arguments. -/
def Term.argsOf : Term → List Term
  | .Predicate _ a => a
  | _              => []

/-- len(term.args) for a predicate head. -/
def Term.nargs (t : Term) : Nat := t.argsOf.length

/-- isinstance(term, Variable). -/
def Term.isVariable : Term → Bool
  | .Variable _ => true
  | _           => false

/-- isinstance(term, Literal): number, string and list literals. -/
def Term.isLiteral : Term → Bool
  | .NumberLiteral _ => true
  | .StringLiteral _ => true
  | .ListLiteral _   => true
  | _                => false

/-- Environment: a Python dict from variable name to a stored value, which
in the source can be a term or the Python value None. -/
abbrev Env : Type := List (String × Option Term)

/-- dict.get: none when the key is absent. -/
def envGet : Env → String → Option (Option Term)
  | [], _ => none
  | (k, v) :: rest, n => if k = n then some v else envGet rest n

/-- dict assignment env[k] = v: replace in place, else append at the end. -/
def envSet : Env → String → Option Term → Env
  | [], n, v => [(n, v)]
  | (k, w) :: rest, n, v =>
      if k = n then (k, v) :: rest else (k, w) :: envSet rest n v

/-- dict.update(other): assign every binding of other, in order. -/
def envUpdate (e other : Env) : Env :=
  other.foldl (fun acc kv => envSet acc kv.1 kv.2) e

/-- copy.deepcopy on an environment: the identity in a pure value model. -/
def deepcopyEnv (e : Env) : Env := e

/-- unary_operators table of runtime.py (prolog_unary_plus, prolog_unary_minus). -/
def unary_operators (n : String) : Option (Int → Term) :=
  if n = "+" then some (fun a => Term.NumberLiteral a)
  else if n = "-" then some (fun a => Term.NumberLiteral (-a))
  else none

/-- binary_operators table of runtime.py.  Division and modulus are
modelled on Int; no claim under verification exercises them. -/
def binary_operators (n : String) : Option (Int → Int → Term) :=
  if n = "+" then some (fun a b => Term.NumberLiteral (a + b))
  else if n = "-" then some (fun a b => Term.NumberLiteral (a - b))
  else if n = "*" then some (fun a b => Term.NumberLiteral (a * b))
  else if n = "/" then some (fun a b => Term.NumberLiteral (a / b))
  else if n = "mod" then some (fun a b => Term.NumberLiteral (a % b))
  else none

/-- The builtin function registry self.builtin_functions: a function takes
the unevaluated term and the environment and returns a value term or the
Python value None. -/
abbrev BuiltinFns : Type := String → Option (Term → Env → Option Term)

/-- The builtin predicate registry self.builtins: a builtin receives the
goal (here: the current subgoal term and the goal environment) and returns
a success flag; it may update the goal environment. -/
abbrev Builtins : Type := String → Option (Term → Env → Bool × Env)

/-- A table with no entry for any name.  The concrete queries of the
claims use only names that the runtime constructor never registers, so on
those queries the real tables behave exactly like this one. -/
def noBuiltinFns : BuiltinFns := fun _ => none

/-- A builtin predicate table with no entry for any name. -/
def noBuiltins : Builtins := fun _ => none

/-- PrologRuntime.prolog_eval, fuelled.  A none result means the fuel ran
out; some r is the value the Python function returns, where r = none is
the Python return value None. -/
def prolog_eval (bfs : BuiltinFns) : Nat → Term → Env → Option (Option Term)
  | 0, _, _ => none
  | fuel + 1, term, env =>
    match term with
    | .Predicate nm args =>
      -- unary builtin? (only consulted when the arity is 1)
      match (match args with | [_] => unary_operators nm | _ => none) with
      | some op =>
        match prolog_eval bfs fuel (args.headD defaultTerm) env with
        | none => none
        | some (some (.NumberLiteral a)) => some (some (op a))
        | some _ => some none
      | none =>
        -- binary builtin?
        match binary_operators nm with
        | some op =>
          if args.length ≠ 2 then some none
          else
            match prolog_eval bfs fuel (args.headD defaultTerm) env with
            | none => none
            | some (some (.NumberLiteral a)) =>
              match prolog_eval bfs fuel (args.getD 1 defaultTerm) env with
              | none => none
              | some (some (.NumberLiteral b)) => some (some (op a b))
              | some _ => some none
            | some _ => some none
        | none =>
          -- engine-provided builtin function?
          match bfs nm with
          | some f => some (f (.Predicate nm args) env)
          | none =>
            -- generic case: evaluate every argument; None if any yields None
            match args.foldl
              (fun acc a =>
                match acc with
                | none => none
                | some none => some none
                | some (some vs) =>
                  match prolog_eval bfs fuel a env with
                  | none => none
                  | some none => some none
                  | some (some v) => some (some (vs ++ [v])))
              (some (some [])) with
            | none => none
            | some none => some none
            | some (some vs) => some (some (.Predicate nm vs))
    | .Variable nm =>
      match envGet env nm with
      | none => some none
      | some none => some none
      | some (some v) => prolog_eval bfs fuel v env
    | lit => some (some lit)

/-- PrologRuntime._unify, fuelled.  A some (b, e) result is the boolean the
Python function returns together with the state of dest_env after the call
(the source mutates dest_env in place; the embedding threads it).  A none
result means the fuel ran out. -/
def unify (bfs : BuiltinFns) : Nat → Term → Env → Term → Env → Option (Bool × Env)
  | 0, _, _, _, _ => none
  | fuel + 1, src, srcEnv, dest, destEnv =>
    match src, dest with
    | .Variable _, _ =>
      match prolog_eval bfs fuel src srcEnv with
      | none => none
      | some none => some (true, destEnv)
      | some (some srcVal) => unify bfs fuel srcVal srcEnv dest destEnv
    | _, .Variable dn =>
      match prolog_eval bfs fuel dest destEnv with
      | none => none
      | some (some destVal) => unify bfs fuel src srcEnv destVal destEnv
      | some none =>
        match prolog_eval bfs fuel src srcEnv with
        | none => none
        | some v => some (true, envSet destEnv dn v)
    | .NumberLiteral _, _ | .StringLiteral _, _ | .ListLiteral _, _ =>
      match prolog_eval bfs fuel src srcEnv, prolog_eval bfs fuel dest destEnv with
      | some sv, some dv => some (sv == dv, destEnv)
      | _, _ => none
    | .Predicate _ _, .NumberLiteral _
    | .Predicate _ _, .StringLiteral _
    | .Predicate _ _, .ListLiteral _ =>
      some (false, destEnv)
    | .Predicate sn sargs, .Predicate dn2 dargs =>
      if sn ≠ dn2 then some (false, destEnv)
      else if sargs.length ≠ dargs.length then some (false, destEnv)
      else
        match (sargs.zip dargs).foldl
          (fun acc ab =>
            match acc with
            | none => none
            | some none => some none
            | some (some dde) =>
              match unify bfs fuel ab.1 srcEnv ab.2 dde with
              | none => none
              | some (false, _) => some none
              | some (true, dde2) => some (some dde2))
          (some (some (deepcopyEnv destEnv))) with
        | none => none
        | some none => some (false, destEnv)
        | some (some dde) => some (true, envUpdate destEnv dde)

/-- PrologGoal of runtime.py: head, remaining subgoal list, optional parent
frame, environment, current subgoal index. -/
inductive PrologGoal where
  | mk (head : Term) (terms : List Term) (parent : Option PrologGoal)
       (env : Env) (inx : Nat)

def PrologGoal.head : PrologGoal → Term
  | .mk h _ _ _ _ => h

def PrologGoal.terms : PrologGoal → List Term
  | .mk _ t _ _ _ => t

def PrologGoal.parent : PrologGoal → Option PrologGoal
  | .mk _ _ p _ _ => p

def PrologGoal.env : PrologGoal → Env
  | .mk _ _ _ e _ => e

def PrologGoal.inx : PrologGoal → Nat
  | .mk _ _ _ _ i => i

/-- Replace the environment and index of a goal (the in-place updates
g.env = ..., g.inx = ... of the source). -/
def PrologGoal.withEnvInx : PrologGoal → Env → Nat → PrologGoal
  | .mk h t p _ _, e, i => .mk h t p e i

/-- queue.pop() of the source: remove and return the LAST list element. -/
def pop? {α : Type} : List α → Option (List α × α)
  | [] => none
  | [a] => some ([], a)
  | a :: b :: rest =>
    match pop? (b :: rest) with
    | none => none
    | some (front, last) => some (a :: front, last)

/-- queue.insert(0, x) of the source: push at the front. -/
def insert0 {α : Type} (x : α) (q : List α) : List α := x :: q

/-- Clause = head plus optional body (spec section 3; logic.py). -/
structure Clause where
  head : Term
  body : Option Term
deriving DecidableEq, Repr

/-- LogicDB rows: (module, clause) in insertion order.  The SQLAlchemy
persistence layer is modelled as this insertion-ordered list; the
json round trip of stored clauses is the identity (spec section 6 requires
the serialization to be a structural bijection). -/
abbrev LogicDB : Type := List (String × Clause)

/-- LogicDB.lookup without an overlay: all persisted clauses whose head
name matches, in insertion order. -/
def dbLookup (db : LogicDB) (name : String) : List Clause :=
  (db.filter (fun mc => mc.2.head.pname == name)).map (fun mc => mc.2)

/-- The child goals spawned from one candidate clause for the current goal
g (runtime.py lines 421 to 443): a fact yields one empty child; an or body
yields one child per arm, each arm flattened if it is an and; otherwise a
single child holding the flattened body. -/
def childGoals (c : Clause) (g : PrologGoal) : List PrologGoal :=
  match c.body with
  | none => [PrologGoal.mk c.head [] (some g) [] 0]
  | some b =>
    if b.pname = "or" then
      b.argsOf.map (fun sub =>
        if sub.pname = "and" then PrologGoal.mk c.head sub.argsOf (some g) [] 0
        else PrologGoal.mk c.head [sub] (some g) [] 0)
    else if b.pname = "and" then [PrologGoal.mk c.head b.argsOf (some g) [] 0]
    else [PrologGoal.mk c.head [b] (some g) [] 0]

/-- runtime.py lines 447 to 451: unify the subgoal against each child head
and push each successfully unified child at the front of the queue. -/
def spawnOne (bfs : BuiltinFns) (fuel : Nat) (pred : Term) (genv : Env) :
    List PrologGoal → List PrologGoal → Option (List PrologGoal)
  | [], queue => some queue
  | child :: rest, queue =>
    match unify bfs fuel pred genv child.head child.env with
    | none => none
    | some (true, cenv) =>
        spawnOne bfs fuel pred genv rest
          (insert0 (child.withEnvInx cenv child.inx) queue)
    | some (false, _) => spawnOne bfs fuel pred genv rest queue

/-- runtime.py lines 412 to 451: iterate the candidate clauses in database
order, skip arity mismatches, spawn and enqueue the children of each. -/
def spawnClauses (bfs : BuiltinFns) (fuel : Nat) (pred : Term) (genv : Env)
    (g : PrologGoal) : List Clause → List PrologGoal → Option (List PrologGoal)
  | [], queue => some queue
  | c :: cs, queue =>
    if c.head.nargs ≠ pred.nargs then spawnClauses bfs fuel pred genv g cs queue
    else
      match spawnOne bfs fuel pred genv (childGoals c g) queue with
      | none => none
      | some queue2 => spawnClauses bfs fuel pred genv g cs queue2

/-- The main loop of PrologRuntime.search (runtime.py lines 352 to 453),
fuelled: one fuel unit per iteration, and the inner unification and
evaluation calls run on the remaining fuel.  none = fuel ran out;
some (Except.error m) = PrologRuntimeError raised; some (Except.ok sols) =
normal return of the solutions list. -/
def searchLoop (db : LogicDB) (bis : Builtins) (bfs : BuiltinFns) :
    Nat → List PrologGoal → List Env → Option (Except String (List Env))
  | 0, _, _ => none
  | fuel + 1, queue, sols =>
    match pop? queue with
    | none => some (.ok sols)
    | some (rest, g) =>
      if g.inx ≥ g.terms.length then
        -- goal finished
        match g.parent with
        | none => searchLoop db bis bfs fuel rest (sols ++ [g.env])
        | some p =>
          -- resume a deep copy of the parent; the unify result is discarded
          match unify bfs fuel g.head g.env (p.terms.getD p.inx defaultTerm) p.env with
          | none => none
          | some (_, penv) =>
              searchLoop db bis bfs fuel
                (insert0 (p.withEnvInx penv (p.inx + 1)) rest) sols
      else
        let pred := g.terms.getD g.inx defaultTerm
        if pred.pname = "is" then
          match prolog_eval bfs fuel (pred.argsOf.getD 0 defaultTerm) g.env,
                prolog_eval bfs fuel (pred.argsOf.getD 1 defaultTerm) g.env with
          | some ques, some ans =>
            if ques.isNone then
              searchLoop db bis bfs fuel
                (insert0 (g.withEnvInx
                    (envSet g.env (pred.argsOf.getD 0 defaultTerm).pname ans)
                    (g.inx + 1)) rest) sols
            else if ques ≠ ans then
              searchLoop db bis bfs fuel rest sols
            else
              searchLoop db bis bfs fuel
                (insert0 (g.withEnvInx g.env (g.inx + 1)) rest) sols
          | _, _ => none
        else if pred.pname = "cut" then
          -- zap the competition, then re-enqueue this goal advanced
          searchLoop db bis bfs fuel [g.withEnvInx g.env (g.inx + 1)] sols
        else if pred.pname = "fail" then
          searchLoop db bis bfs fuel rest sols
        else
          match bis pred.pname with
          | some f =>
            let r := f pred g.env
            if r.1 then
              searchLoop db bis bfs fuel
                (insert0 (g.withEnvInx r.2 (g.inx + 1)) rest) sols
            else searchLoop db bis bfs fuel rest sols
          | none =>
            match dbLookup db pred.pname with
            | [] => some (.error ("Failed to find predicate " ++ pred.pname ++ " !"))
            | c :: cs =>
              match spawnClauses bfs fuel pred g.env g (c :: cs) rest with
              | none => none
              | some queue2 => searchLoop db bis bfs fuel queue2 sols

/-- PrologRuntime.search (runtime.py lines 336 to 453). -/
def search (db : LogicDB) (bis : Builtins) (bfs : BuiltinFns) (fuel : Nat)
    (clause : Clause) (env : Env) : Option (Except String (List Env)) :=
  match clause.body with
  | none => some (.ok [[]])
  | some body =>
    match body with
    | .Predicate nm args =>
        searchLoop db bis bfs fuel
          [PrologGoal.mk clause.head (if nm = "and" then args else [body])
            none (deepcopyEnv env) 0] []
    | _ => some (.error "search: expected predicate in body")

/-!  The overlay layer of src/zamiaprolog/logicdb.py.  -/

/-- Association list lookup for the overlay dictionaries. -/
def alGet : List (String × List Clause) → String → Option (List Clause)
  | [], _ => none
  | (k, v) :: rest, n => if k = n then some v else alGet rest n

/-- Append one clause to the list stored under a name (new names go to the
end, matching dict insertion order). -/
def alAppend : List (String × List Clause) → String → Clause → List (String × List Clause)
  | [], n, c => [(n, [c])]
  | (k, cs) :: rest, n, c =>
      if k = n then (k, cs ++ [c]) :: rest else (k, cs) :: alAppend rest n c

/-- LogicDBOverlay: staged assertz and retract logs. -/
structure LogicDBOverlay where
  d_assertz   : List (String × List Clause)
  d_retracted : List (String × List Clause)
deriving DecidableEq, Repr

/-- LogicDBOverlay.assertz: append the clause under its head name. -/
def LogicDBOverlay.assertz (ov : LogicDBOverlay) (c : Clause) : LogicDBOverlay :=
  { ov with d_assertz := alAppend ov.d_assertz c.head.pname c }

/-- LogicDBOverlay.do_filter.  A name present in d_retracted reaches the
pdb.set_trace() placeholder, which suspends execution: modelled as an
error.  Otherwise the overlay asserts for the name are appended to the
candidate list. -/
def LogicDBOverlay.do_filter (ov : LogicDBOverlay) (name : String)
    (res : List Clause) : Except String (List Clause) :=
  if (alGet ov.d_retracted name).isSome then
    .error "retract placeholder reached"
  else
    .ok (res ++ ((alGet ov.d_assertz name).getD []))

/-- LogicDB.lookup with optional overlay (logicdb.py lines 91 to 107). -/
def LogicDB.lookup (db : LogicDB) (name : String)
    (overlay : Option LogicDBOverlay) : Except String (List Clause) :=
  let res := dbLookup db name
  match overlay with
  | none => .ok res
  | some ov => ov.do_filter name res

/-- The overlay with no staged mutation (LogicDBOverlay.__init__). -/
def emptyOverlay : LogicDBOverlay := ⟨[], []⟩

/-- The overlay obtained by asserting a list of clauses in order. -/
def ovOfAsserts (cs : List Clause) : LogicDBOverlay :=
  cs.foldl (fun o c => o.assertz c) emptyOverlay

/-!  Concrete data for the scenario claims.  -/

/-- Zero-arity predicate (an atom). -/
def atomT (s : String) : Term := .Predicate s []

def vX : Term := .Variable "X"
def vY : Term := .Variable "Y"
def vZ : Term := .Variable "Z"

def parentP (a b : Term) : Term := .Predicate "parent" [a, b]

/-- The scenario database of spec section 8: parent(tom,bob).
parent(bob,ann). parent(bob,pat). grandparent(X,Z) :-
and(parent(X,Y), parent(Y,Z)). -/
def familyDb : LogicDB :=
  [ ("family", ⟨parentP (atomT "tom") (atomT "bob"), none⟩),
    ("family", ⟨parentP (atomT "bob") (atomT "ann"), none⟩),
    ("family", ⟨parentP (atomT "bob") (atomT "pat"), none⟩),
    ("family", ⟨.Predicate "grandparent" [vX, vZ],
      some (.Predicate "and" [parentP vX vY, parentP vY vZ])⟩) ]

/-- A query clause: dummy head, the query goal as body. -/
def queryClause (body : Term) : Clause := ⟨atomT "query", some body⟩

/-- A database mixing a rule clause and a fact clause for the same
predicate: q(1). q(2). p(X) :- q(X). p(3). -/
def pqDb : LogicDB :=
  [ ("m", ⟨.Predicate "q" [.NumberLiteral 1], none⟩),
    ("m", ⟨.Predicate "q" [.NumberLiteral 2], none⟩),
    ("m", ⟨.Predicate "p" [vX], some (.Predicate "q" [vX])⟩),
    ("m", ⟨.Predicate "p" [.NumberLiteral 3], none⟩) ]

/-- Goals used to exhibit the pop order of the main loop. -/
def goalA : PrologGoal := PrologGoal.mk (atomT "a") [] none [] 0

/-- Second distinct goal for the pop order counterexample. -/
def goalB : PrologGoal := PrologGoal.mk (atomT "b") [] none [] 0

/-!  Claim C1.  -/

/-- Claim C1, counterexample to the universal part: solution order is NOT
always depth-first SLD order over database insertion order.  On the
database q(1). q(2). p(X) :- q(X). p(3). the query p(Y) yields the
solutions in the order Y=3, Y=1, Y=2, while depth-first resolution in
clause order yields Y=1, Y=2, Y=3: the fact clause p(3), tried second,
delivers its solution first, because the queue is popped at the far end
from where children are inserted. -/
theorem claim1_counterexample :
    search pqDb noBuiltins noBuiltinFns 60
      (queryClause (.Predicate "p" [.Variable "Y"])) [] =
      some (.ok [[("Y", some (Term.NumberLiteral 3))],
                 [("Y", some (Term.NumberLiteral 1))],
                 [("Y", some (Term.NumberLiteral 2))]]) ∧
    [[("Y", some (Term.NumberLiteral 3))],
     [("Y", some (Term.NumberLiteral 1))],
     [("Y", some (Term.NumberLiteral 2))]] ≠
    ([[("Y", some (Term.NumberLiteral 1))],
      [("Y", some (Term.NumberLiteral 2))],
      [("Y", some (Term.NumberLiteral 3))]] : List Env) := by
  constructor
  · rfl
  · decide

/-- Claim C1, amended: the concrete scenario holds as claimed — on the
parent/grandparent database the query grandparent(tom, Z) returns exactly
the two solutions Z=ann then Z=pat, in that order — but solution order is
not in general depth-first SLD order (see the counterexample; the FIFO
goal queue can interleave the solutions of a rule clause and a later fact
clause for the same predicate). -/
theorem claim1_theorem :
    search familyDb noBuiltins noBuiltinFns 60
      (queryClause (.Predicate "grandparent" [atomT "tom", vZ])) [] =
      some (.ok [[("Z", some (atomT "ann"))], [("Z", some (atomT "pat"))]]) := by
  rfl

/-!  Claim C2.  -/

/-- Claim C2: executing a cut subgoal empties the pending goal queue, then
advances the index of the current frame and re-enqueues only that frame
(first conjunct, stated for an arbitrary reachable loop configuration);
consequently the query and(parent(tom,X), cut, parent(X,Z)) on the
parent/grandparent database returns exactly X=bob,Z=ann then X=bob,Z=pat:
cut commits to X=bob, yet both children of bob are still enumerated after
the cut (second conjunct). -/
theorem claim2_theorem :
    (∀ (db : LogicDB) (bis : Builtins) (bfs : BuiltinFns) (fuel : Nat)
        (queue rest : List PrologGoal) (g : PrologGoal) (sols : List Env),
      pop? queue = some (rest, g) →
      g.inx < g.terms.length →
      (g.terms.getD g.inx defaultTerm).pname = "cut" →
      searchLoop db bis bfs (fuel + 1) queue sols =
        searchLoop db bis bfs fuel [g.withEnvInx g.env (g.inx + 1)] sols) ∧
    search familyDb noBuiltins noBuiltinFns 60
      (queryClause (.Predicate "and"
        [parentP (atomT "tom") vX, atomT "cut", parentP vX vZ])) [] =
      some (.ok [[("X", some (atomT "bob")), ("Z", some (atomT "ann"))],
                 [("X", some (atomT "bob")), ("Z", some (atomT "pat"))]]) := by
  constructor
  · intro db bis bfs fuel queue rest g sols hpop hlt hcut
    simp only [searchLoop, hpop]
    rw [if_neg (by omega)]
    simp only [hcut]
    rfl
  · rfl

/-- Witness for claim C2: the cut step at a concrete configuration. -/
theorem claim2_witness :
    searchLoop familyDb noBuiltins noBuiltinFns 4
      [PrologGoal.mk (atomT "w") [atomT "cut"] none [] 0] [] =
    searchLoop familyDb noBuiltins noBuiltinFns 3
      [(PrologGoal.mk (atomT "w") [atomT "cut"] none [] 0).withEnvInx [] 1] [] :=
  claim2_theorem.1 familyDb noBuiltins noBuiltinFns 3
    [PrologGoal.mk (atomT "w") [atomT "cut"] none [] 0] []
    (PrologGoal.mk (atomT "w") [atomT "cut"] none [] 0) []
    rfl (by decide) rfl

/-!  Claim C4.  -/

/-- Claim C4, counterexample: on the query is(X, +(a,1)) with a an atom
and X unbound, search does NOT return no solutions: it returns one
solution, in which X is bound to the Python value None. -/
theorem claim4_counterexample :
    search ([] : LogicDB) noBuiltins noBuiltinFns 20
      (queryClause (.Predicate "is"
        [vX, .Predicate "+" [atomT "a", .NumberLiteral 1]])) [] =
      some (.ok [[("X", none)]]) ∧
    ([[("X", none)]] : List Env) ≠ ([] : List Env) := by
  constructor
  · rfl
  · decide

/-- Claim C4, amended: for the query is(X, +(a,1)) with a an atom, the
arithmetic evaluator does return None for the right hand side, but the is
subgoal does not fail: since the left hand side X is unbound (also
evaluating to None), the engine assigns env[X] = None and succeeds, so
search returns exactly one solution, binding X to None. -/
theorem claim4_theorem :
    prolog_eval noBuiltinFns 19
      (.Predicate "+" [atomT "a", .NumberLiteral 1]) [] = some none ∧
    search ([] : LogicDB) noBuiltins noBuiltinFns 20
      (queryClause (.Predicate "is"
        [vX, .Predicate "+" [atomT "a", .NumberLiteral 1]])) [] =
      some (.ok [[("X", none)]]) := by
  constructor
  · rfl
  · rfl

/-!  Claim C5.  -/

/-- Claim C5, counterexample: for the term mod(1) — a Predicate whose name
is the registered binary operator mod with arity 1, not matching the
unary operator or builtin function cases, and whose single argument
evaluates to the non-None value 1 — prolog_eval returns None, not
Predicate(mod, [1]). -/
theorem claim5_counterexample :
    prolog_eval noBuiltinFns 5 (.Predicate "mod" [.NumberLiteral 1]) [] =
      some none ∧
    (some (none : Option Term)) ≠
      some (some (Term.Predicate "mod" [.NumberLiteral 1])) := by
  constructor
  · rfl
  · decide

/-- Claim C5, amended: for every Predicate term whose name is a registered
binary operator and whose arity is not 2, and which does not match the
unary operator case, prolog_eval returns None immediately (the arity guard
of the binary operator branch short-circuits before the generic
rebuild-the-predicate case is reached), for any builtin function table,
environment and positive fuel. -/
theorem claim5_theorem :
    ∀ (bfs : BuiltinFns) (env : Env) (fuel : Nat) (name : String) (args : List Term),
      (binary_operators name).isSome →
      args.length ≠ 2 →
      (args.length = 1 → unary_operators name = none) →
      prolog_eval bfs (fuel + 1) (.Predicate name args) env = some none := by
  intro bfs env fuel name args hbin hlen huna
  obtain ⟨op, hop⟩ := Option.isSome_iff_exists.mp hbin
  rcases args with _ | ⟨a, _ | ⟨b, rest⟩⟩
  · simp only [prolog_eval, hop]
    rw [if_pos hlen]
  · simp only [prolog_eval, huna rfl, hop]
    rw [if_pos hlen]
  · simp only [prolog_eval, hop]
    rw [if_pos hlen]

/-- Witness for claim C5 at the concrete input mod(1). -/
theorem claim5_witness :
    prolog_eval noBuiltinFns 5 (.Predicate "mod" [.NumberLiteral 1]) [] =
      some none :=
  claim5_theorem noBuiltinFns [] 4 "mod" [.NumberLiteral 1]
    rfl (by decide) (fun _ => rfl)

/-!  Claim C7.  -/

/-- Claim C7, counterexample: the main loop does NOT pop the most recently
inserted goal.  Insert goalA, then insert goalB (both insertions via the
insert0 used by the loop, so goalB is the most recently inserted); the
pop? used by the main loop returns goalA, and goalA is distinct from
goalB. -/
theorem claim7_counterexample :
    pop? (insert0 goalB (insert0 goalA ([] : List PrologGoal))) =
      some ([goalB], goalA) ∧ goalA ≠ goalB := by
  constructor
  · rfl
  · intro h
    simp only [goalA, goalB] at h
    injection h with h1 h2 h3 h4 h5
    exact absurd h1 (by decide)

/-- Claim C7, amended: the resolution main loop pops the LEAST recently
inserted goal: every insertion (insert0) prepends to the queue list and
the pop (pop?) removes the last element, a first-in first-out discipline.
Consequently a completed frame continuation, enqueued at the front, is
processed only after every goal already pending in the queue, not before
the pending alternatives at the same depth. -/
theorem claim7_theorem :
    ∀ (q : List PrologGoal) (g : PrologGoal), pop? (q ++ [g]) = some (q, g) := by
  intro q
  induction q with
  | nil => intro g; rfl
  | cons a q ih =>
    intro g
    cases q with
    | nil => rfl
    | cons b q2 =>
      have h := ih g
      simp only [List.cons_append] at h ⊢
      simp only [pop?]
      rw [h]

/-!  Claim C10.  -/

/-- Helper: when every candidate clause has the wrong head arity, the
spawning pass skips every clause and leaves the queue untouched. -/
theorem spawnClauses_skip (bfs : BuiltinFns) (fuel : Nat) (pred : Term)
    (genv : Env) (g : PrologGoal) :
    ∀ (cs : List Clause) (queue : List PrologGoal),
      (∀ c ∈ cs, c.head.nargs ≠ pred.nargs) →
      spawnClauses bfs fuel pred genv g cs queue = some queue := by
  intro cs
  induction cs with
  | nil => intro queue _; rfl
  | cons c cs ih =>
    intro queue h
    simp only [spawnClauses]
    rw [if_pos (h c (by simp))]
    exact ih queue (fun d hd => h d (by simp [hd]))

/-- Claim C10: when the database lookup for the current subgoal returns at
least one clause but none of the returned clauses has the arity of the
subgoal, the loop raises no error (no undefined-predicate failure): every
candidate is silently skipped, no child goal is enqueued, the frame is
dropped and the solution list is unchanged — the step is exactly a
transition to the rest of the queue with the same solutions. -/
theorem claim10_theorem :
    ∀ (db : LogicDB) (bis : Builtins) (bfs : BuiltinFns) (fuel : Nat)
      (queue rest : List PrologGoal) (g : PrologGoal) (sols : List Env),
      pop? queue = some (rest, g) →
      g.inx < g.terms.length →
      (g.terms.getD g.inx defaultTerm).pname ≠ "is" →
      (g.terms.getD g.inx defaultTerm).pname ≠ "cut" →
      (g.terms.getD g.inx defaultTerm).pname ≠ "fail" →
      bis (g.terms.getD g.inx defaultTerm).pname = none →
      dbLookup db (g.terms.getD g.inx defaultTerm).pname ≠ [] →
      (∀ c ∈ dbLookup db (g.terms.getD g.inx defaultTerm).pname,
        c.head.nargs ≠ (g.terms.getD g.inx defaultTerm).nargs) →
      searchLoop db bis bfs (fuel + 1) queue sols =
        searchLoop db bis bfs fuel rest sols := by
  intro db bis bfs fuel queue rest g sols hpop hlt his hcut hfail hbis hne hall
  simp only [searchLoop, hpop]
  rw [if_neg (by omega)]
  simp only [his, hcut, hfail, hbis, if_neg]
  rcases hdb : dbLookup db (g.terms.getD g.inx defaultTerm).pname with _ | ⟨c, cs⟩
  · exact absurd hdb hne
  · rw [hdb] at hall
    simp only [hdb]
    rw [spawnClauses_skip bfs fuel (g.terms.getD g.inx defaultTerm) g.env g
      (c :: cs) rest hall]
    simp

/-- Witness for claim C10: the arity-mismatch query parent(tom) — arity 1
against the three stored parent/2 facts — at a concrete configuration. -/
theorem claim10_witness :
    searchLoop familyDb noBuiltins noBuiltinFns 4
      [PrologGoal.mk (atomT "w") [.Predicate "parent" [atomT "tom"]] none [] 0] [] =
    searchLoop familyDb noBuiltins noBuiltinFns 3 [] [] :=
  claim10_theorem familyDb noBuiltins noBuiltinFns 3
    [PrologGoal.mk (atomT "w") [.Predicate "parent" [atomT "tom"]] none [] 0] []
    (PrologGoal.mk (atomT "w") [.Predicate "parent" [atomT "tom"]] none [] 0) []
    rfl (by decide) (by decide) (by decide) (by decide) rfl (by decide) (by decide)

/-!  Claim C8.  -/

/-- The staged assertz clauses of an overlay for one name, in assert order. -/
def assertzOf (ov : LogicDBOverlay) (n : String) : List Clause :=
  (alGet ov.d_assertz n).getD []

/-- Appending a clause under name m changes only the entry of m, by
appending the clause at the end of its list. -/
theorem alGet_alAppend (m : String) (c : Clause) (n : String) :
    ∀ (l : List (String × List Clause)),
      alGet (alAppend l m c) n =
        if m = n then some (((alGet l n).getD []) ++ [c]) else alGet l n := by
  intro l
  induction l with
  | nil =>
    by_cases h : m = n
    · subst h
      simp [alAppend, alGet]
    · simp [alAppend, alGet, h]
  | cons kv rest ih =>
    obtain ⟨k, cs⟩ := kv
    by_cases hkm : k = m
    · subst hkm
      by_cases hkn : k = n
      · subst hkn
        simp [alAppend, alGet]
      · simp [alAppend, alGet, hkn]
    · by_cases hkn : k = n
      · subst hkn
        have hmk : ¬(m = k) := fun h => hkm h.symm
        simp [alAppend, alGet, hkm, hmk]
      · simp [alAppend, alGet, hkm, hkn, ih]

/-- One assertz appends the clause to the staged list of its head name and
leaves every other name unchanged. -/
theorem assertzOf_assertz (ov : LogicDBOverlay) (c : Clause) (n : String) :
    assertzOf (ov.assertz c) n =
      assertzOf ov n ++ (if c.head.pname = n then [c] else []) := by
  unfold assertzOf LogicDBOverlay.assertz
  rw [alGet_alAppend]
  by_cases h : c.head.pname = n <;> simp [h]

/-- Folding assertz over a clause list stages, for each name, exactly the
clauses of that head name in the order asserted. -/
theorem assertzOf_foldl (n : String) :
    ∀ (cs : List Clause) (ov : LogicDBOverlay),
      assertzOf (cs.foldl (fun o c => o.assertz c) ov) n =
        assertzOf ov n ++ cs.filter (fun c => c.head.pname == n) := by
  intro cs
  induction cs with
  | nil => intro ov; simp
  | cons c cs ih =>
    intro ov
    simp only [List.foldl_cons, List.filter_cons]
    rw [ih (ov.assertz c), assertzOf_assertz]
    by_cases h : c.head.pname = n <;> simp [h]

/-- A sequence of assertz calls stages no retraction. -/
theorem ovOfAsserts_retracted (cs : List Clause) :
    (ovOfAsserts cs).d_retracted = [] := by
  unfold ovOfAsserts
  suffices h : ∀ ov : LogicDBOverlay, ov.d_retracted = [] →
      (cs.foldl (fun o c => o.assertz c) ov).d_retracted = [] from
    h emptyOverlay rfl
  induction cs with
  | nil => intro ov h; exact h
  | cons c cs ih => intro ov h; exact ih (ov.assertz c) h

/-- Claim C8: for every database, name and overlay whose retracted map is
empty, lookup returns exactly the persisted clauses whose head name
matches, in database insertion order (dbLookup filters the insertion
ordered rows), followed by the staged assertz entries of the overlay for
that name (first conjunct); and the staged entries of an overlay built by
a sequence of assertz calls are exactly the asserted clauses of that head
name in assert order, with no staged retraction (second conjunct).  The
embedded lookup is a pure function of the database value, so the database
state is not modified. -/
theorem claim8_theorem :
    (∀ (db : LogicDB) (n : String) (ov : LogicDBOverlay),
        ov.d_retracted = [] →
        LogicDB.lookup db n (some ov) = .ok (dbLookup db n ++ assertzOf ov n)) ∧
    (∀ (cs : List Clause) (n : String),
        assertzOf (ovOfAsserts cs) n = cs.filter (fun c => c.head.pname == n) ∧
        (ovOfAsserts cs).d_retracted = []) := by
  constructor
  · intro db n ov h
    simp [LogicDB.lookup, LogicDBOverlay.do_filter, h, alGet, assertzOf]
  · intro cs n
    refine ⟨?_, ovOfAsserts_retracted cs⟩
    unfold ovOfAsserts
    rw [assertzOf_foldl]
    simp [assertzOf, emptyOverlay, alGet]

/-- Witness for claim C8: a concrete lookup of parent through an overlay
holding one staged parent clause. -/
theorem claim8_witness :
    LogicDB.lookup familyDb "parent"
      (some (ovOfAsserts [⟨parentP (atomT "x") (atomT "y"), none⟩])) =
      .ok (dbLookup familyDb "parent" ++
        assertzOf (ovOfAsserts [⟨parentP (atomT "x") (atomT "y"), none⟩]) "parent") :=
  claim8_theorem.1 familyDb "parent"
    (ovOfAsserts [⟨parentP (atomT "x") (atomT "y"), none⟩]) rfl

/-!  Claim C6.  -/

/-- Claim C6: unification failure is atomic.  Whenever _unify returns
false, the destination environment it hands back is exactly the one it was
called with: a partially successful argument-wise unification runs on a
deep copied scratch environment that is merged back only on full success,
so a failing call never pollutes dest_env — for every builtin function
table, fuel, pair of terms and pair of environments. -/
theorem claim6_theorem :
    ∀ (bfs : BuiltinFns) (fuel : Nat) (src : Term) (srcEnv : Env)
      (dest : Term) (destEnv e : Env),
      unify bfs fuel src srcEnv dest destEnv = some (false, e) → e = destEnv := by
  intro bfs fuel
  induction fuel with
  | zero => intro src se dest de e h; exact absurd h (by simp [unify])
  | succ fuel ih =>
    intro src se dest de e h
    cases src <;> cases dest <;>
      (simp only [unify] at h; repeat' split at h) <;>
      first
        | (exact ih _ _ _ _ _ h)
        | simp_all

/-- Witness for claim C6: a failing literal unification at a concrete
nonempty destination environment returns that environment unchanged. -/
theorem claim6_witness :
    unify noBuiltinFns 9 (.NumberLiteral 1) [] (.NumberLiteral 2)
      [("A", some (atomT "t"))] = some (false, [("A", some (atomT "t"))]) ∧
    ([("A", some (atomT "t"))] : Env) = [("A", some (atomT "t"))] :=
  ⟨rfl, claim6_theorem noBuiltinFns 9 (.NumberLiteral 1) [] (.NumberLiteral 2)
    [("A", some (atomT "t"))] [("A", some (atomT "t"))] rfl⟩

/-!  Claim C3.  -/

/-- Evaluation-inert terms: no variables, and no predicate name that is a
registered unary operator, binary operator or builtin function, so that
prolog_eval maps the term to itself in every environment. -/
inductive Inert (bfs : BuiltinFns) : Term → Prop
  | num  : ∀ f, Inert bfs (.NumberLiteral f)
  | str  : ∀ s, Inert bfs (.StringLiteral s)
  | list : ∀ xs, Inert bfs (.ListLiteral xs)
  | pred : ∀ n args, unary_operators n = none → binary_operators n = none →
      bfs n = none → (∀ a ∈ args, Inert bfs a) →
      Inert bfs (.Predicate n args)

/-- The success relation that _unify decides on evaluation-inert terms:
equal literals unify, and predicates unify when names match and the
arguments unify pairwise. -/
inductive IUnif : Term → Term → Prop
  | litEq : ∀ a, a.isLiteral = true → IUnif a a
  | predNil : ∀ n, IUnif (.Predicate n []) (.Predicate n [])
  | predCons : ∀ n a b as bs, IUnif a b →
      IUnif (.Predicate n as) (.Predicate n bs) →
      IUnif (.Predicate n (a :: as)) (.Predicate n (b :: bs))

/-- The inert-unification relation is symmetric. -/
theorem IUnif.swap : ∀ {a b : Term}, IUnif a b → IUnif b a := by
  intro a b h
  induction h with
  | litEq a hl => exact IUnif.litEq a hl
  | predNil n => exact IUnif.predNil n
  | predCons n a b as bs h1 h2 ih1 ih2 => exact IUnif.predCons n b a bs as ih1 ih2

/-- On a literal left side, inert unification is equality. -/
theorem IUnif_lit_iff (a : Term) (hla : a.isLiteral = true) (b : Term) :
    IUnif a b ↔ a = b := by
  constructor
  · intro h
    cases h with
    | litEq a2 hl => rfl
    | predNil n => simp [Term.isLiteral] at hla
    | predCons n a2 b2 as bs h1 h2 => simp [Term.isLiteral] at hla
  · intro h
    subst h
    exact IUnif.litEq a hla


/-- A predicate never inert-unifies with a literal. -/
theorem IUnif_pred_lit (n : String) (args : List Term) (b : Term)
    (hlb : b.isLiteral = true) : ¬ IUnif (.Predicate n args) b := by
  intro h
  cases h with
  | litEq a2 hl => simp [Term.isLiteral] at hl
  | predNil m => simp [Term.isLiteral] at hlb
  | predCons m a2 b2 as bs h1 h2 => simp [Term.isLiteral] at hlb

/-- Inert-unifiable predicates have equal names and arities. -/
theorem IUnif_name_len : ∀ {x y : Term}, IUnif x y →
    ∀ {n m : String} {as bs : List Term},
      x = .Predicate n as → y = .Predicate m bs →
      n = m ∧ as.length = bs.length := by
  intro x y h
  induction h with
  | litEq a hl =>
    intro n m as bs hx hy
    subst hx
    injection hy with h1 h2
    simp [h1, h2]
  | predNil k =>
    intro n m as bs hx hy
    injection hx with h1 h2
    injection hy with h3 h4
    subst h1; subst h2; subst h3; subst h4
    simp
  | predCons k a b as2 bs2 h1 h2 ih1 ih2 =>
    intro n m as bs hx hy
    injection hx with hx1 hx2
    injection hy with hy1 hy2
    subst hx1; subst hx2; subst hy1; subst hy2
    have := (ih2 rfl rfl).2
    simp [this]

/-- Splitting an inert unification of nonempty predicates. -/
theorem IUnif_cons_inv {n : String} {a b : Term} {as bs : List Term} :
    IUnif (.Predicate n (a :: as)) (.Predicate n (b :: bs)) →
    IUnif a b ∧ IUnif (.Predicate n as) (.Predicate n bs) := by
  intro h
  cases h with
  | litEq x hl => simp [Term.isLiteral] at hl
  | predCons k a2 b2 as2 bs2 h1 h2 => exact ⟨h1, h2⟩

/-- An inert term is not a variable. -/
theorem inert_not_var {bfs : BuiltinFns} {b : Term} (hb : Inert bfs b) :
    b.isVariable = false := by
  cases hb <;> rfl

/-- A fold whose step maps none to none stays at none. -/
theorem foldl_none_absorb {α β : Type} (f : Option β → α → Option β)
    (hf : ∀ a, f none a = none) : ∀ l : List α, l.foldl f none = none := by
  intro l
  induction l with
  | nil => rfl
  | cons a l ih =>
    rw [List.foldl_cons, hf]
    exact ih

/-- A fold whose step fixes some none stays at some none. -/
theorem foldl_somenone_absorb {α γ : Type}
    (f : Option (Option γ) → α → Option (Option γ))
    (hf : ∀ a, f (some none) a = some none) :
    ∀ l : List α, l.foldl f (some none) = some none := by
  intro l
  induction l with
  | nil => rfl
  | cons a l ih =>
    rw [List.foldl_cons, hf]
    exact ih

/-- The argument fold of the generic prolog_eval case, on arguments whose
converging evaluations are the identity, converges only to the argument
list itself (appended to the accumulator). -/
theorem evalArgs_inert (bfs : BuiltinFns) (fuel : Nat) (env : Env)
    (f : Option (Option (List Term)) → Term → Option (Option (List Term)))
    (hfn : ∀ a, f none a = none)
    (hfs : ∀ a, f (some none) a = some none)
    (hfv : ∀ vs a, f (some (some vs)) a =
      match prolog_eval bfs fuel a env with
      | none => none
      | some none => some none
      | some (some v) => some (some (vs ++ [v]))) :
    ∀ (args : List Term),
      (∀ a ∈ args, ∀ (r : Option Term),
        prolog_eval bfs fuel a env = some r → r = some a) →
      ∀ (acc : List Term) (x : Option (List Term)),
        args.foldl f (some (some acc)) = some x →
        x = some (acc ++ args) := by
  intro args
  induction args with
  | nil =>
    intro hpt acc x h
    rw [List.foldl_nil] at h
    injection h with h1
    rw [← h1]
    simp
  | cons a args ih =>
    intro hpt acc x h
    rw [List.foldl_cons, hfv] at h
    rcases heval : prolog_eval bfs fuel a env with _ | ⟨_ | v⟩ <;> rw [heval] at h
    · rw [foldl_none_absorb f hfn] at h
      exact Option.noConfusion h
    · exact absurd (hpt a (by simp) none heval) (by simp)
    · have hva := hpt a (by simp) (some v) heval
      injection hva with hv
      rw [hv] at h
      have hx := ih (fun a2 ha2 r2 h2 => hpt a2 (by simp [ha2]) r2 h2) (acc ++ [a]) x h
      rw [hx]
      simp

/-- prolog_eval is the identity on inert terms: whenever it converges, the
value is the term itself. -/
theorem eval_inert (bfs : BuiltinFns) :
    ∀ (t : Term), Inert bfs t →
      ∀ (fuel : Nat) (env : Env) (r : Option Term),
        prolog_eval bfs fuel t env = some r → r = some t := by
  intro t ht
  induction ht with
  | num f =>
    intro fuel env r h
    cases fuel with
    | zero => simp [prolog_eval] at h
    | succ fuel =>
      simp only [prolog_eval] at h
      injection h with h1
      exact h1.symm
  | str s =>
    intro fuel env r h
    cases fuel with
    | zero => simp [prolog_eval] at h
    | succ fuel =>
      simp only [prolog_eval] at h
      injection h with h1
      exact h1.symm
  | list xs =>
    intro fuel env r h
    cases fuel with
    | zero => simp [prolog_eval] at h
    | succ fuel =>
      simp only [prolog_eval] at h
      injection h with h1
      exact h1.symm
  | pred n args hu hb hf hmem ih =>
    intro fuel env r h
    cases fuel with
    | zero => simp [prolog_eval] at h
    | succ fuel =>
      have hpt : ∀ a ∈ args, ∀ (r2 : Option Term),
          prolog_eval bfs fuel a env = some r2 → r2 = some a :=
        fun a ha r2 h2 => ih a ha fuel env r2 h2
      rcases args with _ | ⟨a0, _ | ⟨a1, rest2⟩⟩
      · simp only [prolog_eval, hb, hf] at h
        injection h with h1
        exact h1.symm
      · simp only [prolog_eval, hu, hb, hf] at h
        split at h
        · exact Option.noConfusion h
        · rename_i heq
          exact absurd (evalArgs_inert bfs fuel env _ (fun _ => rfl) (fun _ => rfl)
            (fun _ _ => rfl) [a0] hpt [] none heq) (by simp)
        · rename_i vs heq
          have hvs := evalArgs_inert bfs fuel env _ (fun _ => rfl) (fun _ => rfl)
            (fun _ _ => rfl) [a0] hpt [] (some vs) heq
          injection hvs with hvs1
          injection h with h1
          rw [← h1, hvs1]
          simp
      · simp only [prolog_eval, hb, hf] at h
        split at h
        · exact Option.noConfusion h
        · rename_i heq
          exact absurd (evalArgs_inert bfs fuel env _ (fun _ => rfl) (fun _ => rfl)
            (fun _ _ => rfl) (a0 :: a1 :: rest2) hpt [] none heq) (by simp)
        · rename_i vs heq
          have hvs := evalArgs_inert bfs fuel env _ (fun _ => rfl) (fun _ => rfl)
            (fun _ _ => rfl) (a0 :: a1 :: rest2) hpt [] (some vs) heq
          injection hvs with hvs1
          injection h with h1
          rw [← h1, hvs1]
          simp

/-- The literal-source case of _unify (runtime.py lines 295 to 298): with
a literal source and a non-variable destination, unify evaluates both
sides and compares the values. -/
theorem unify_eq_litcase (bfs : BuiltinFns) (fuel : Nat) (a b : Term)
    (se de : Env) (hla : a.isLiteral = true) (hbv : b.isVariable = false) :
    unify bfs (fuel + 1) a se b de =
      match prolog_eval bfs fuel a se, prolog_eval bfs fuel b de with
      | some sv, some dv => some (sv == dv, de)
      | _, _ => none := by
  cases a with
  | Variable n => simp [Term.isLiteral] at hla
  | Predicate n as => simp [Term.isLiteral] at hla
  | NumberLiteral f =>
    cases b with
    | Variable m => simp [Term.isVariable] at hbv
    | NumberLiteral g => rfl
    | StringLiteral s => rfl
    | ListLiteral xs => rfl
    | Predicate m bs => rfl
  | StringLiteral s0 =>
    cases b with
    | Variable m => simp [Term.isVariable] at hbv
    | NumberLiteral g => rfl
    | StringLiteral s => rfl
    | ListLiteral xs => rfl
    | Predicate m bs => rfl
  | ListLiteral xs0 =>
    cases b with
    | Variable m => simp [Term.isVariable] at hbv
    | NumberLiteral g => rfl
    | StringLiteral s => rfl
    | ListLiteral xs => rfl
    | Predicate m bs => rfl

/-- The predicate-against-literal case of _unify (runtime.py lines 300 to
301): immediate failure leaving dest_env unchanged. -/
theorem unify_eq_predlit (bfs : BuiltinFns) (fuel : Nat) (n : String)
    (as : List Term) (b : Term) (se de : Env) (hlb : b.isLiteral = true) :
    unify bfs (fuel + 1) (.Predicate n as) se b de = some (false, de) := by
  cases b with
  | Variable m => simp [Term.isLiteral] at hlb
  | Predicate m bs => simp [Term.isLiteral] at hlb
  | NumberLiteral g => rfl
  | StringLiteral s => rfl
  | ListLiteral xs => rfl

/-- On a literal inert source against an inert destination, a converging
unify succeeds exactly when the terms are equal, hence exactly when they
inert-unify. -/
theorem unify_lit_main (bfs : BuiltinFns) {a : Term} (ha : Inert bfs a)
    (hla : a.isLiteral = true) {b : Term} (hb : Inert bfs b) :
    ∀ (fuel : Nat) (se de : Env) (r : Bool) (e : Env),
      unify bfs fuel a se b de = some (r, e) → (r = true ↔ IUnif a b) := by
  intro fuel se de r e h
  cases fuel with
  | zero => simp [unify] at h
  | succ fuel =>
    rw [unify_eq_litcase bfs fuel a b se de hla (inert_not_var hb)] at h
    rcases h1 : prolog_eval bfs fuel a se with _ | sv <;> rw [h1] at h
    · exact Option.noConfusion h
    · rcases h2 : prolog_eval bfs fuel b de with _ | dv <;> rw [h2] at h
      · exact Option.noConfusion h
      · have hsv := eval_inert bfs a ha fuel se sv h1
        have hdv := eval_inert bfs b hb fuel de dv h2
        subst hsv
        subst hdv
        injection h with hpair
        injection hpair with hr he
        rw [← hr]
        rw [IUnif_lit_iff a hla b]
        simp

/-- The argument fold of the predicate case of _unify, on pointwise inert
arguments, converges to a non-failure exactly when the argument lists
inert-unify pairwise. -/
theorem unifyArgs_inert (bfs : BuiltinFns) (fuel : Nat) (se : Env) (n : String)
    (f : Option (Option Env) → Term × Term → Option (Option Env))
    (hfn : ∀ ab, f none ab = none)
    (hfs : ∀ ab, f (some none) ab = some none)
    (hfv : ∀ dde ab, f (some (some dde)) ab =
      match unify bfs fuel ab.1 se ab.2 dde with
      | none => none
      | some (false, _) => some none
      | some (true, dde3) => some (some dde3)) :
    ∀ (as bs : List Term),
      (∀ a ∈ as, ∀ (b : Term), Inert bfs b →
        ∀ (fuel2 : Nat) (se2 de2 : Env) (r2 : Bool) (e2 : Env),
          unify bfs fuel2 a se2 b de2 = some (r2, e2) → (r2 = true ↔ IUnif a b)) →
      (∀ b ∈ bs, Inert bfs b) →
      as.length = bs.length →
      ∀ (dde : Env) (x : Option Env),
        (as.zip bs).foldl f (some (some dde)) = some x →
        ((∃ y, x = some y) ↔ IUnif (.Predicate n as) (.Predicate n bs)) := by
  intro as
  induction as with
  | nil =>
    intro bs hpt hbs hlen dde x h
    cases bs with
    | cons b bs => simp at hlen
    | nil =>
      simp only [List.zip_nil_left, List.foldl_nil] at h
      injection h with h1
      constructor
      · intro _
        exact IUnif.predNil n
      · intro _
        exact ⟨dde, h1.symm⟩
  | cons a as2 ih =>
    intro bs hpt hbs hlen dde x h
    cases bs with
    | nil => simp at hlen
    | cons b bs2 =>
      rw [List.zip_cons_cons, List.foldl_cons, hfv] at h
      rcases hun : unify bfs fuel a se b dde with _ | ⟨rb, deb⟩ <;> rw [hun] at h
      · rw [foldl_none_absorb f hfn] at h
        exact Option.noConfusion h
      · have hptab := hpt a (by simp) b (hbs b (by simp)) fuel se dde rb deb hun
        cases rb with
        | false =>
          rw [foldl_somenone_absorb f hfs] at h
          injection h with h1
          rw [← h1]
          constructor
          · intro hc
            obtain ⟨y, hy⟩ := hc
            exact Option.noConfusion hy
          · intro hI
            have hff := hptab.mpr (IUnif_cons_inv hI).1
            exact absurd hff (by simp)
        | true =>
          have hIab : IUnif a b := hptab.mp rfl
          have ihr := ih bs2
            (fun a2 ha2 => hpt a2 (by simp [ha2]))
            (fun b2 hb2 => hbs b2 (by simp [hb2]))
            (by simpa using hlen) deb x h
          constructor
          · intro hx
            exact IUnif.predCons n a b as2 bs2 hIab (ihr.mp hx)
          · intro hI
            exact ihr.mpr (IUnif_cons_inv hI).2

/-- On inert terms, a converging _unify call succeeds exactly when the
terms inert-unify, for any environments and fuel. -/
theorem unify_inert (bfs : BuiltinFns) :
    ∀ (a : Term), Inert bfs a → ∀ (b : Term), Inert bfs b →
      ∀ (fuel : Nat) (se de : Env) (r : Bool) (e : Env),
        unify bfs fuel a se b de = some (r, e) → (r = true ↔ IUnif a b) := by
  intro a ha
  induction ha with
  | num f =>
    intro b hb fuel se de r e h
    exact unify_lit_main bfs (Inert.num f) rfl hb fuel se de r e h
  | str s =>
    intro b hb fuel se de r e h
    exact unify_lit_main bfs (Inert.str s) rfl hb fuel se de r e h
  | list xs =>
    intro b hb fuel se de r e h
    exact unify_lit_main bfs (Inert.list xs) rfl hb fuel se de r e h
  | pred n as hu hbin hf hmem ih =>
    intro b hb fuel se de r e h
    cases hb with
    | num g =>
      cases fuel with
      | zero => simp [unify] at h
      | succ fuel =>
        rw [unify_eq_predlit bfs fuel n as (.NumberLiteral g) se de rfl] at h
        injection h with hpair
        injection hpair with hr he
        rw [← hr]
        constructor
        · intro hc
          exact absurd hc (by simp)
        · intro hI
          exact absurd hI (IUnif_pred_lit n as (.NumberLiteral g) rfl)
    | str s2 =>
      cases fuel with
      | zero => simp [unify] at h
      | succ fuel =>
        rw [unify_eq_predlit bfs fuel n as (.StringLiteral s2) se de rfl] at h
        injection h with hpair
        injection hpair with hr he
        rw [← hr]
        constructor
        · intro hc
          exact absurd hc (by simp)
        · intro hI
          exact absurd hI (IUnif_pred_lit n as (.StringLiteral s2) rfl)
    | list xs2 =>
      cases fuel with
      | zero => simp [unify] at h
      | succ fuel =>
        rw [unify_eq_predlit bfs fuel n as (.ListLiteral xs2) se de rfl] at h
        injection h with hpair
        injection hpair with hr he
        rw [← hr]
        constructor
        · intro hc
          exact absurd hc (by simp)
        · intro hI
          exact absurd hI (IUnif_pred_lit n as (.ListLiteral xs2) rfl)
    | pred m bs hu2 hbin2 hf2 hmem2 =>
      cases fuel with
      | zero => simp [unify] at h
      | succ fuel =>
        simp only [unify] at h
        by_cases hnm : n = m
        · subst hnm
          rw [if_neg (by simp)] at h
          by_cases hlen : as.length = bs.length
          · rw [if_neg (by simp [hlen])] at h
            split at h
            · exact Option.noConfusion h
            · rename_i heq
              injection h with hpair
              injection hpair with hr he
              rw [← hr]
              have hiff := unifyArgs_inert bfs fuel se n _ (fun _ => rfl)
                (fun _ => rfl) (fun _ _ => rfl) as bs ih hmem2 hlen
                (deepcopyEnv de) none heq
              constructor
              · intro hc
                exact absurd hc (by simp)
              · intro hI
                obtain ⟨y, hy⟩ := hiff.mpr hI
                exact Option.noConfusion hy
            · rename_i dde heq
              injection h with hpair
              injection hpair with hr he
              rw [← hr]
              have hiff := unifyArgs_inert bfs fuel se n _ (fun _ => rfl)
                (fun _ => rfl) (fun _ _ => rfl) as bs ih hmem2 hlen
                (deepcopyEnv de) (some dde) heq
              constructor
              · intro _
                exact hiff.mp ⟨dde, rfl⟩
              · intro _
                rfl
          · rw [if_pos (by simp [hlen])] at h
            injection h with hpair
            injection hpair with hr he
            rw [← hr]
            constructor
            · intro hc
              exact absurd hc (by simp)
            · intro hI
              exact absurd (IUnif_name_len hI rfl rfl).2 hlen
        · rw [if_pos (by simp [hnm])] at h
          injection h with hpair
          injection hpair with hr he
          rw [← hr]
          constructor
          · intro hc
            exact absurd hc (by simp)
          · intro hI
            exact absurd (IUnif_name_len hI rfl rfl).1 hnm

/-- Claim C3, counterexample: unification success is NOT symmetric.  With
both environments empty, _unify(3, {}, +(1,2), {}) succeeds — the literal
source is compared against the EVALUATED destination — while the flipped
call _unify(+(1,2), {}, 3, {}) fails immediately in the
destination-is-a-literal case without evaluating the source. -/
theorem claim3_counterexample :
    unify noBuiltinFns 9 (.NumberLiteral 3) []
      (.Predicate "+" [.NumberLiteral 1, .NumberLiteral 2]) [] =
      some (true, []) ∧
    unify noBuiltinFns 9
      (.Predicate "+" [.NumberLiteral 1, .NumberLiteral 2]) []
      (.NumberLiteral 3) [] = some (false, []) := by
  constructor
  · rfl
  · rfl

/-- Claim C3, amended: unification is symmetric in success for
evaluation-inert terms — terms containing no variables and no predicate
name registered as a unary operator, binary operator or builtin function.
For such a and b, whenever both _unify(a, {}, b, {}) and the flipped call
converge (any fuels, in fact any environments on the recursive structure),
they return the same success flag.  Symmetry genuinely fails for terms the
evaluator can reduce (see the counterexample) and for terms with repeated
variables, because an unbound source variable unifies without recording a
binding. -/
theorem claim3_theorem :
    ∀ (bfs : BuiltinFns) (a b : Term), Inert bfs a → Inert bfs b →
      ∀ (f1 f2 : Nat) (r1 r2 : Bool) (e1 e2 : Env),
        unify bfs f1 a [] b [] = some (r1, e1) →
        unify bfs f2 b [] a [] = some (r2, e2) →
        (r1 = true ↔ r2 = true) := by
  intro bfs a b ha hb f1 f2 r1 r2 e1 e2 h1 h2
  have k1 := unify_inert bfs a ha b hb f1 [] [] r1 e1 h1
  have k2 := unify_inert bfs b hb a ha f2 [] [] r2 e2 h2
  constructor
  · intro hr
    exact k2.mpr (IUnif.swap (k1.mp hr))
  · intro hr
    exact k1.mpr (IUnif.swap (k2.mp hr))

/-- Witness for claim C3: two distinct inert atoms, both directions
converging to failure. -/
theorem claim3_witness :
    unify noBuiltinFns 3 (atomT "foo") [] (atomT "bar") [] = some (false, []) ∧
    unify noBuiltinFns 3 (atomT "bar") [] (atomT "foo") [] = some (false, []) ∧
    ((false = true) ↔ (false = true)) :=
  ⟨rfl, rfl,
    claim3_theorem noBuiltinFns (atomT "foo") (atomT "bar")
      (Inert.pred "foo" [] rfl rfl rfl (by simp))
      (Inert.pred "bar" [] rfl rfl rfl (by simp))
      3 3 false false [] [] rfl rfl⟩
